import Mathlib

/-!
# fperf/tikv: order-preserving key codec, key generators, command dispatch

A shallow embedding of `raw.go`, `client.go` and `command.go`.

* Go `[]byte` values are lists of `Byte = Fin 256`; byte arithmetic is arithmetic of `Fin 256`.
* Go `string` values that the program scans or builds (`client.go`) are lists of characters;
  the two place holders and every generated value are ASCII, so matching on characters and
  matching on bytes agree for them.
* Go `int`/`int64` values are `Int`; the one place where `int64` overflow can happen
  (`v += 1` in `seqCreater`) wraps explicitly.
* A Go call that can return an error or stop with a run-time panic returns a `Result`.
-/

namespace Tikv

set_option maxRecDepth 8000

/-! ## Common types -/

/-- One Go `byte`. -/
abbrev Byte := Fin 256

/-- The Go `error` values that the embedded code can return. -/
inductive GoError where
  /-- Decoding needed a 9-byte group and fewer than 9 bytes were left. -/
  | insufficientBytes
  /-- Decoding met a marker whose padding count exceeds the group size. -/
  | invalidMarker
  /-- An error made with `errors.New` in `Call`. -/
  | usage (msg : String)
  /-- An error returned by the backing store client, passed through. -/
  | store (code : Nat)
  deriving DecidableEq, Repr

/-- The ways a Go call can stop with a run-time panic. -/
inductive Panic where
  /-- A method call through a nil interface or nil pointer, or a call of a nil func value. -/
  | nilDereference
  /-- An index expression outside the bounds of its slice. -/
  | indexOutOfRange
  /-- The panic of `rand.Int63n` for a bound that is not positive. -/
  | invalidArgument
  deriving DecidableEq, Repr

/-- Outcome of a Go call: a value, a returned `error`, or a run-time panic. -/
inductive Result (α : Type) where
  | ok (a : α)
  | err (e : GoError)
  | panic (p : Panic)
  deriving DecidableEq, Repr

/-! ## The codec package used by `raw.go` -/

/-- Modelled from the spec: the body of `codec.EncodeBytes` of the imported package
`github.com/pingcap/tidb/util/codec`, which `TiKVCodec.EncodeBytes` calls and whose source is
not part of this repository. The input is processed in consecutive chunks of up to 8 bytes;
a full chunk is emitted followed by marker `255` and the walk goes on; the last chunk (the
remaining `r < 8` bytes, possibly none) is emitted followed by `8 - r` zero bytes and the
marker `255 - (8 - r)`. This is also the rule written above `TiKVCodec.EncodeBytes`:
`[group1][marker1]...[groupN][markerN]`, marker `0xFF - padding 0 count`. -/
def encodeGroups : List Byte → List Byte
  | b0 :: b1 :: b2 :: b3 :: b4 :: b5 :: b6 :: b7 :: rest =>
      b0 :: b1 :: b2 :: b3 :: b4 :: b5 :: b6 :: b7 :: 255 :: encodeGroups rest
  | chunk =>
      chunk ++ List.replicate (8 - chunk.length) 0 ++ [Fin.ofNat (255 - (8 - chunk.length))]

/-- Modelled from the spec: `codec.EncodeBytes(b, data)` of the imported tidb codec package
(source not part of this repository): the encoded groups of `data` appended to `b`. -/
def codec.EncodeBytes (b data : List Byte) : List Byte :=
  b ++ encodeGroups data

/-- Modelled from the spec: the group loop of `codec.DecodeBytes` of the imported tidb codec
package (source not part of this repository). It consumes 9-byte groups: 8 data bytes and a
marker. With `padding = 255 - marker`: a padding above 8 is a corruption error; padding 0
appends the 8 bytes and goes on with the next group; otherwise the first `8 - padding` bytes
are appended, the loop stops, and the bytes after the group are returned as leftover.
Fewer than 9 bytes where a group is expected is a corruption error. The result is
`(leftover, decoded)`. -/
def decodeGroups : List Byte → List Byte → Result (List Byte × List Byte)
  | b0 :: b1 :: b2 :: b3 :: b4 :: b5 :: b6 :: b7 :: marker :: rest, buf =>
      let group := [b0, b1, b2, b3, b4, b5, b6, b7]
      let padding : Nat := 255 - marker.val
      if padding > 8 then .err .invalidMarker
      else if padding = 0 then decodeGroups rest (buf ++ group)
      else .ok (rest, buf ++ group.take (8 - padding))
  | _, _ => .err .insufficientBytes

/-- Modelled from the spec: `codec.DecodeBytes(b, buf)` of the imported tidb codec package
(source not part of this repository). `buf` only lends its storage (`raw.go`: it "is used to
buffer data to avoid the cost of makeslice"); the decoded value starts empty. -/
def codec.DecodeBytes (b _buf : List Byte) : Result (List Byte × List Byte) :=
  decodeGroups b []

/-- Go `bytes.Compare` (the `compareBytes` of the specification): unsigned lexicographic
comparison, a proper prefix ordering below its extensions. -/
def compareBytes : List Byte → List Byte → Ordering
  | [], [] => .eq
  | [], _ :: _ => .lt
  | _ :: _, [] => .gt
  | x :: xs, y :: ys =>
      if x < y then .lt else if y < x then .gt else compareBytes xs ys

/-! ## raw.go -/

/-- The interface `Codec`. -/
structure Codec where
  EncodeBytes : List Byte → List Byte → List Byte
  DecodeBytes : List Byte → List Byte → Result (List Byte × List Byte)

/-- Method `(*TiKVCodec).EncodeBytes`: `return codec.EncodeBytes(b, data)`. -/
def TiKVCodec.EncodeBytes (b data : List Byte) : List Byte :=
  codec.EncodeBytes b data

/-- Method `(*TiKVCodec).DecodeBytes`: `return codec.DecodeBytes(b, buf)`. -/
def TiKVCodec.DecodeBytes (b buf : List Byte) : Result (List Byte × List Byte) :=
  codec.DecodeBytes b buf

/-- The value `&TiKVCodec{}` seen through the interface `Codec`. -/
def TiKVCodec.asCodec : Codec :=
  { EncodeBytes := TiKVCodec.EncodeBytes, DecodeBytes := TiKVCodec.DecodeBytes }

/-- The part of the external `*tikv.RawKVClient` that `Scan` uses: the store's range scan,
returning keys and values or an error. -/
structure RawKVClient where
  Scan : List Byte → Int → Result (List (List Byte) × List (List Byte))

/-- The struct `RawTiKVClient`; `raw` and `codec` are nil until set. -/
structure RawTiKVClient where
  raw : Option RawKVClient
  mvcc : Bool
  codec : Option Codec

/-- The type `TiKVOption`. -/
abbrev TiKVOption := RawTiKVClient → RawTiKVClient

/-- Function `WithCodec`: the option that sets `c.codec`. -/
def WithCodec (codec : Codec) : TiKVOption :=
  fun c => { c with codec := some codec }

/-- Function `NewRawTiKVClient`: start from the zero struct, apply the options in order, then store
the client returned by `tikv.NewRawKVClient` (here `dial`, its outcome). -/
def NewRawTiKVClient (dial : Result RawKVClient) (options : List TiKVOption) :
    Result RawTiKVClient :=
  let c : RawTiKVClient := { raw := none, mvcc := false, codec := none }
  let c := options.foldl (fun c o => o c) c
  match dial with
  | .ok raw => .ok { c with raw := some raw }
  | .err e => .err e
  | .panic p => .panic p

/-- The loop of `Scan` over the returned keys: decode each key with an empty buffer, stop at
the first error. -/
def RawTiKVClient.Scan.decodeLoop (cd : Codec) : List (List Byte) → Result (List (List Byte))
  | [] => .ok []
  | k :: ks =>
      match cd.DecodeBytes k [] with
      | .ok (_, key) =>
          match RawTiKVClient.Scan.decodeLoop cd ks with
          | .ok decoded => .ok (key :: decoded)
          | .err e => .err e
          | .panic p => .panic p
      | .err e => .err e
      | .panic p => .panic p

/-- Method `(*RawTiKVClient).Scan`. The first statement calls `c.codec.EncodeBytes` with no test of
`c.codec`; a method call through a nil interface is a run-time panic. -/
def RawTiKVClient.Scan (c : RawTiKVClient) (startKey : List Byte) (limit : Int) :
    Result (List (List Byte) × List (List Byte)) :=
  match c.codec with
  | none => .panic .nilDereference
  | some cd =>
    let encoded := cd.EncodeBytes [] startKey
    match c.raw with
    | none => .panic .nilDereference
    | some raw =>
      match raw.Scan encoded limit with
      | .err e => .err e
      | .panic p => .panic p
      | .ok (keys, vals) =>
        match c.codec with
        | some cd2 =>
            match RawTiKVClient.Scan.decodeLoop cd2 keys with
            | .ok decoded => .ok (decoded, vals)
            | .err e => .err e
            | .panic p => .panic p
        | none => .ok (keys, vals)

/-! ## client.go -/

/-- The constant `seqPlaceHolder`. -/
def seqPlaceHolder : List Char := "__seq_int__".toList

/-- The constant `randPlaceHolder`. -/
def randPlaceHolder : List Char := "__rand_int__".toList

/-- The slice `l` built in `seqCreater` and again, with the same contents, in `randCreater`:
entry `i` is a run of `i` characters `'0'`, for `i` from 0 to 15. -/
def fillTable : List (List Char) :=
  [ "".toList,
    "0".toList,
    "00".toList,
    "000".toList,
    "0000".toList,
    "00000".toList,
    "000000".toList,
    "0000000".toList,
    "00000000".toList,
    "000000000".toList,
    "0000000000".toList,
    "00000000000".toList,
    "000000000000".toList,
    "0000000000000".toList,
    "00000000000000".toList,
    "000000000000000".toList ]

/-- Go `strconv.FormatInt(v, 10)`: the decimal digits of `v`, with a leading `'-'` when `v` is
negative. -/
def FormatInt (v : Int) : List Char :=
  if v < 0 then '-' :: Nat.toDigits 10 v.natAbs else Nat.toDigits 10 v.toNat

/-- The number that a string of decimal digits denotes, read from the left
(`10 * acc + digit` per character). Used to state what a generated string means. -/
def decimalValue (s : List Char) : Nat :=
  s.foldl (fun acc c => 10 * acc + (c.toNat - '0'.toNat)) 0

/-- Reduction of an integer to the range of Go `int64` (two's complement wrap-around). -/
def wrapInt64 (x : Int) : Int :=
  (x + 2 ^ 63) % 2 ^ 64 - 2 ^ 63

/-- The statements shared by both generator closures after `s` is formatted:
`filled := len(l) - len(s)`; `if filled <= 0 { return s }`; `return l[filled] + s`.
An index outside `l` is a run-time panic. -/
def fill (l : List (List Char)) (s : List Char) : Result (List Char) :=
  let filled : Int := (l.length : Int) - (s.length : Int)
  if filled ≤ 0 then .ok s
  else
    match l.get? filled.toNat with
    | some zeros => .ok (zeros ++ s)
    | none => .panic .indexOutOfRange

/-- The state captured by the closure that `seqCreater` returns: the variable `v`. -/
structure SeqGen where
  v : Int
  deriving DecidableEq, Repr

/-- Function `seqCreater(begin)`: the closure starts with `v := begin`. -/
def seqCreater (begin : Int) : SeqGen :=
  { v := begin }

/-- One call of the closure returned by `seqCreater`: format `v`, add one to `v` (under the
mutex), then pad. Returns the string and the closure state after the call. -/
def SeqGen.call (g : SeqGen) : Result (List Char) × SeqGen :=
  let s := FormatInt g.v
  let g1 : SeqGen := { v := wrapInt64 (g.v + 1) }
  (fill fillTable s, g1)

/-- The closure state after `n` calls. -/
def SeqGen.after (g : SeqGen) : Nat → SeqGen
  | 0 => g
  | n + 1 => (g.after n).call.2

/-- The string returned by call number `n`, counting from 0. -/
def SeqGen.nth (g : SeqGen) (n : Nat) : Result (List Char) :=
  (g.after n).call.1

/-- The global source of `math/rand`: `draws i` is the value that draw number `i` returns,
`drawn` counts the draws made so far. -/
structure RandSource where
  draws : Nat → Int
  drawn : Nat

/-- Go `rand.Int63n(n)`: panics unless `n > 0`, else returns the next draw. -/
def Int63n (src : RandSource) (n : Int) : Result (Int × RandSource) :=
  if n ≤ 0 then .panic .invalidArgument
  else .ok (src.draws src.drawn, { src with drawn := src.drawn + 1 })

/-- The state captured by the closure that `randCreater` returns: the bound `max`. -/
structure RandGen where
  max : Int
  deriving DecidableEq, Repr

/-- Function `randCreater(max)`. -/
def randCreater (max : Int) : RandGen :=
  { max := max }

/-- One call of the closure returned by `randCreater`: draw with `rand.Int63n(max)`, format,
pad. -/
def RandGen.call (g : RandGen) (src : RandSource) : Result (List Char × RandSource) :=
  match Int63n src g.max with
  | .ok (r, src1) =>
      match fill fillTable (FormatInt r) with
      | .ok out => .ok (out, src1)
      | .err e => .err e
      | .panic p => .panic p
  | .err e => .err e
  | .panic p => .panic p

/-- The package-level mutable state of `client.go`: the closure `seq` (made by
`seqCreater(0)`) and the random source behind the closure `random` (made by
`randCreater(10000000000000000)`). -/
structure World where
  seqGen : SeqGen
  src : RandSource

/-- The state at program start. -/
def World.init (draws : Nat → Int) : World :=
  { seqGen := seqCreater 0, src := { draws := draws, drawn := 0 } }

/-- The package variable `seq`, called once. -/
def seq (w : World) : Result (List Char × World) :=
  match w.seqGen.call with
  | (.ok out, g1) => .ok (out, { w with seqGen := g1 })
  | (.err e, _) => .err e
  | (.panic p, _) => .panic p

/-- The package variable `random`, called once. -/
def random (w : World) : Result (List Char × World) :=
  match (randCreater 10000000000000000).call w.src with
  | .ok (out, src1) => .ok (out, { w with src := src1 })
  | .err e => .err e
  | .panic p => .panic p

/-- Go `strings.Index(s, substr)`: the index of the first instance of `substr` in `s`, or
`-1` when there is none. -/
def strings.Index : List Char → List Char → Int
  | [], substr => if substr = [] then 0 else -1
  | c :: cs, substr =>
      if substr.isPrefixOf (c :: cs) then 0
      else
        let i := strings.Index cs substr
        if i < 0 then -1 else i + 1

/-- The scan of `strings.Replace` for a non-empty `old` and no limit: at each position, an
instance of `old` is replaced by `new` and the scan goes on behind it; any other character is
kept. `fuel` bounds the number of steps; `s.length` steps always suffice. -/
def strings.Replace.loop (old new : List Char) : Nat → List Char → List Char
  | 0, s => s
  | _ + 1, [] => []
  | fuel + 1, c :: cs =>
      if old.isPrefixOf (c :: cs) then
        new ++ strings.Replace.loop old new fuel ((c :: cs).drop old.length)
      else
        c :: strings.Replace.loop old new fuel cs

/-- Go `strings.Replace(s, old, new, -1)`: every non-overlapping instance of `old`, found
from left to right, replaced by `new`. For an empty `old` Go inserts `new` before every
character and at the end. -/
def strings.Replace (s old new : List Char) : List Char :=
  if old = new then s
  else if old = [] then new ++ s.flatMap (fun c => c :: new)
  else strings.Replace.loop old new s.length s

/-- Function `replaceSeq`: `strings.Replace(s, seqPlaceHolder, seq(), -1)`. -/
def replaceSeq (s : List Char) (w : World) : Result (List Char × World) :=
  match seq w with
  | .ok (v, w1) => .ok (strings.Replace s seqPlaceHolder v, w1)
  | .err e => .err e
  | .panic p => .panic p

/-- Function `replaceRand`: `strings.Replace(s, randPlaceHolder, random(), -1)`. -/
def replaceRand (s : List Char) (w : World) : Result (List Char × World) :=
  match random w with
  | .ok (v, w1) => .ok (strings.Replace s randPlaceHolder v, w1)
  | .err e => .err e
  | .panic p => .panic p

/-- Function `replace`. -/
def replace (s : List Char) (w : World) : Result (List Char × World) :=
  let step1 : Result (List Char × World) :=
    if strings.Index s seqPlaceHolder ≥ 0 then replaceSeq s w else .ok (s, w)
  match step1 with
  | .ok (s1, w1) =>
      if strings.Index s1 randPlaceHolder ≥ 0 then replaceRand s1 w1 else .ok (s1, w1)
  | .err e => .err e
  | .panic p => .panic p

/-! ## command.go -/

/-- The four command procedures `Set`, `Get`, `Delete`, `Scan`, by name. -/
inductive Command where
  | Set
  | Get
  | Delete
  | Scan
  deriving DecidableEq, Repr

/-- The struct `Desc`; `Proc` is `none` for a nil func value. -/
structure Desc where
  Proc : Option Command
  Arity : Int
  deriving DecidableEq, Repr

/-- The map `commands`; `none` when the key is absent. -/
def commands (name : String) : Option Desc :=
  if name = "set" then some { Proc := some .Set, Arity := 2 }
  else if name = "get" then some { Proc := some .Get, Arity := 1 }
  else if name = "delete" then some { Proc := some .Delete, Arity := 1 }
  else if name = "scan" then some { Proc := some .Scan, Arity := 1 }
  else none

/-- The fields of `options` that `Call` reads. -/
structure Options where
  raw : Bool
  verbose : Bool
  limit : Int
  deriving DecidableEq, Repr

/-- The struct `Context` handed to a command procedure (`Out` is standard output when
`verbose`, the discard writer otherwise). -/
structure Context where
  Name : String
  Args : List String
  OutIsStdout : Bool
  Raw : Bool
  Limit : Int
  deriving DecidableEq, Repr

/-- What `Call` ends with: an error it returns itself, a run-time panic, or the call
`cmd.Proc(ctx)` whose result it returns. -/
inductive CallOutcome where
  | returned (e : GoError)
  | panicked (p : Panic)
  | invoked (proc : Command) (ctx : Context)
  deriving DecidableEq, Repr

/-- Function `Call`. A failed lookup in `commands` leaves `cmd` the zero `Desc` (nil `Proc`,
`Arity` 0); the statement `errors.New("unkown command")` inside `if !ok` builds a value
and drops it, so control goes on to the arity test. -/
def Call (opt : Options) (args : List String) : CallOutcome :=
  match args with
  | [] => .panicked .indexOutOfRange
  | name :: args =>
    let cmd : Desc :=
      match commands name with
      | some d => d
      | none => { Proc := none, Arity := 0 }
    if (args.length : Int) < cmd.Arity then
      .returned (.usage "wrong number of args")
    else
      let ctx : Context :=
        { Name := name, Args := args, OutIsStdout := opt.verbose, Raw := opt.raw,
          Limit := opt.limit }
      match cmd.Proc with
      | some proc => .invoked proc ctx
      | none => .panicked .nilDereference

/-! ## Lemmas on the codec -/

theorem length_eight {α : Type} (g : List α) (h : g.length = 8) :
    ∃ a0 a1 a2 a3 a4 a5 a6 a7, g = [a0, a1, a2, a3, a4, a5, a6, a7] := by
  match g, h with
  | [a0, a1, a2, a3, a4, a5, a6, a7], _ => exact ⟨a0, a1, a2, a3, a4, a5, a6, a7, rfl⟩

theorem encodeGroups_full (g rest : List Byte) (h : g.length = 8) :
    encodeGroups (g ++ rest) = g ++ 255 :: encodeGroups rest := by
  obtain ⟨a0, a1, a2, a3, a4, a5, a6, a7, rfl⟩ := length_eight g h
  simp [encodeGroups]

theorem encodeGroups_short (s : List Byte) (h : s.length < 8) :
    encodeGroups s =
      s ++ List.replicate (8 - s.length) 0 ++ [Fin.ofNat (247 + s.length)] := by
  rw [encodeGroups.eq_2]
  · have e : 255 - (8 - s.length) = 247 + s.length := by omega
    rw [e]
  · intro b0 b1 b2 b3 b4 b5 b6 b7 rest hs
    subst hs
    simp at h
    omega

theorem split_eight (data : List Byte) (h : 8 ≤ data.length) :
    ∃ g rest, data = g ++ rest ∧ g.length = 8 ∧ rest = data.drop 8 ∧ g = data.take 8 :=
  ⟨data.take 8, data.drop 8, (List.take_append_drop 8 data).symm, by simp; omega, rfl, rfl⟩

theorem encodeGroups_closed (n : Nat) : ∀ data : List Byte, data.length = n →
    encodeGroups data =
      (List.range (data.length / 8)).flatMap (fun i => (data.drop (8 * i)).take 8 ++ [255])
        ++ (data.drop (8 * (data.length / 8)) ++ List.replicate (8 - data.length % 8) 0
              ++ [Fin.ofNat (247 + data.length % 8)]) := by
  induction n using Nat.strong_induction_on with
  | _ n ih =>
    intro data hn
    by_cases hlt : data.length < 8
    · have h0 : data.length / 8 = 0 := by omega
      have h1 : data.length % 8 = data.length := by omega
      rw [h0, h1, encodeGroups_short data hlt]
      simp
    · obtain ⟨g, rest, hd, hg, -, -⟩ := split_eight data (by omega)
      subst hd
      have hlen : (g ++ rest).length = rest.length + 8 := by simp; omega
      have hq : (g ++ rest).length / 8 = rest.length / 8 + 1 := by omega
      have hr : (g ++ rest).length % 8 = rest.length % 8 := by omega
      have key := ih rest.length (by omega) rest rfl
      rw [encodeGroups_full g rest hg, key, hq, hr, List.range_succ_eq_map]
      have hdrop : ∀ i, List.drop (8 * (i + 1)) (g ++ rest) = List.drop (8 * i) rest := by
        intro i
        have : 8 * (i + 1) = g.length + 8 * i := by omega
        rw [this, List.drop_append]
      have htake : List.take 8 (g ++ rest) = g := by
        rw [← hg, List.take_left]
      simp [List.flatMap_map, hdrop, htake, Function.comp_def]

theorem encodeGroups_length (n : Nat) : ∀ data : List Byte, data.length = n →
    (encodeGroups data).length = 9 * (data.length / 8 + 1) := by
  induction n using Nat.strong_induction_on with
  | _ n ih =>
    intro data hn
    by_cases hlt : data.length < 8
    · rw [encodeGroups_short data hlt]
      simp
      omega
    · obtain ⟨g, rest, hd, hg, -, -⟩ := split_eight data (by omega)
      subst hd
      rw [encodeGroups_full g rest hg]
      have key := ih rest.length (by simp at hn; omega) rest rfl
      simp [key]
      omega

theorem encodeGroups_marker_full (j : Nat) : ∀ data : List Byte, j < data.length / 8 →
    (encodeGroups data)[9 * j + 8]? = some 255 := by
  induction j with
  | zero =>
    intro data hj
    obtain ⟨g, rest, hd, hg, -, -⟩ := split_eight data (by omega)
    subst hd
    obtain ⟨a0, a1, a2, a3, a4, a5, a6, a7, rfl⟩ := length_eight g hg
    simp [encodeGroups]
  | succ j ih =>
    intro data hj
    obtain ⟨g, rest, hd, hg, -, -⟩ := split_eight data (by omega)
    subst hd
    have hlen : (g ++ rest).length = rest.length + 8 := by simp; omega
    have key := ih rest (by omega)
    obtain ⟨a0, a1, a2, a3, a4, a5, a6, a7, rfl⟩ := length_eight g hg
    have e : 9 * (j + 1) + 8 = (9 * j + 8) + 9 := by omega
    rw [e]
    simpa [encodeGroups] using key

theorem encodeGroups_marker_last (n : Nat) : ∀ data : List Byte, data.length = n →
    (encodeGroups data)[9 * (data.length / 8) + 8]? = some (Fin.ofNat (247 + data.length % 8)) := by
  induction n using Nat.strong_induction_on with
  | _ n ih =>
    intro data hn
    by_cases hlt : data.length < 8
    · have h0 : data.length / 8 = 0 := by omega
      have h1 : data.length % 8 = data.length := by omega
      rw [h0, h1, encodeGroups_short data hlt]
      have hl : (data ++ List.replicate (8 - data.length) (0 : Byte)).length = 8 := by
        simp; omega
      rw [List.getElem?_append_right (by omega)]
      simp [hl]
    · obtain ⟨g, rest, hd, hg, -, -⟩ := split_eight data (by omega)
      subst hd
      have hlen : (g ++ rest).length = rest.length + 8 := by simp; omega
      have hq : (g ++ rest).length / 8 = rest.length / 8 + 1 := by omega
      have hr : (g ++ rest).length % 8 = rest.length % 8 := by omega
      have key := ih rest.length (by omega) rest rfl
      obtain ⟨a0, a1, a2, a3, a4, a5, a6, a7, rfl⟩ := length_eight g hg
      have e : 9 * (rest.length / 8 + 1) + 8 = (9 * (rest.length / 8) + 8) + 9 := by omega
      rw [hq, hr, e]
      simpa [encodeGroups] using key

theorem decodeGroups_short (b buf : List Byte) (h : b.length < 9) :
    decodeGroups b buf = .err .insufficientBytes := by
  rw [decodeGroups.eq_2]
  intro b0 b1 b2 b3 b4 b5 b6 b7 m rest hs
  subst hs
  simp at h
  omega

theorem decodeGroups_group (g : List Byte) (m : Byte) (rest buf : List Byte)
    (h : g.length = 8) :
    decodeGroups (g ++ m :: rest) buf =
      if 255 - m.val > 8 then .err .invalidMarker
      else if 255 - m.val = 0 then decodeGroups rest (buf ++ g)
      else .ok (rest, buf ++ g.take (8 - (255 - m.val))) := by
  obtain ⟨a0, a1, a2, a3, a4, a5, a6, a7, rfl⟩ := length_eight g h
  simp [decodeGroups]

theorem marker_val (r : Nat) (h : r ≤ 8) : ((Fin.ofNat (247 + r) : Byte)).val = 247 + r := by
  simp [Fin.ofNat]
  omega

theorem decodeGroups_encodeGroups (n : Nat) : ∀ k t buf : List Byte, k.length = n →
    decodeGroups (encodeGroups k ++ t) buf = .ok (t, buf ++ k) := by
  induction n using Nat.strong_induction_on with
  | _ n ih =>
    intro k t buf hn
    by_cases hlt : k.length < 8
    · rw [encodeGroups_short k hlt]
      have hl : (k ++ List.replicate (8 - k.length) (0 : Byte)).length = 8 := by
        simp; omega
      have e : k ++ List.replicate (8 - k.length) 0 ++ [Fin.ofNat (247 + k.length)] ++ t
          = (k ++ List.replicate (8 - k.length) 0) ++ (Fin.ofNat (247 + k.length) : Byte) :: t := by
        simp
      rw [e, decodeGroups_group _ _ _ _ hl, marker_val k.length (by omega)]
      have h1 : ¬ (255 - (247 + k.length) > 8) := by omega
      have h2 : ¬ (255 - (247 + k.length) = 0) := by omega
      have h3 : 8 - (255 - (247 + k.length)) = k.length := by omega
      rw [if_neg h1, if_neg h2, h3, List.take_left]
    · obtain ⟨g, rest, hd, hg, -, -⟩ := split_eight k (by omega)
      subst hd
      have hlen : (g ++ rest).length = rest.length + 8 := by simp; omega
      have key := ih rest.length (by omega) rest t (buf ++ g) rfl
      have e : g ++ 255 :: encodeGroups rest ++ t = g ++ (255 : Byte) :: (encodeGroups rest ++ t) := by
        simp
      rw [encodeGroups_full g rest hg, e, decodeGroups_group _ _ _ _ hg]
      simpa using key

theorem decodeGroups_corrupt (groups : List (List Byte)) :
    ∀ (tail buf : List Byte), (∀ g ∈ groups, g.length = 8) →
      (tail.length < 9 →
        decodeGroups (groups.flatMap (fun g => g ++ [255]) ++ tail) buf
          = .err .insufficientBytes) ∧
      (∀ g m rest, tail = g ++ m :: rest → g.length = 8 → m < 247 →
        decodeGroups (groups.flatMap (fun g => g ++ [255]) ++ tail) buf
          = .err .invalidMarker) := by
  induction groups with
  | nil =>
    intro tail buf _
    refine ⟨fun h => by simpa using decodeGroups_short tail buf h, ?_⟩
    intro g m rest ht hg hm
    subst ht
    have hv : m.val < 247 := hm
    have h1 : 255 - m.val > 8 := by omega
    simp only [List.flatMap_nil, List.nil_append]
    rw [decodeGroups_group g m rest buf hg, if_pos h1]
  | cons g0 gs ih =>
    intro tail buf hall
    have hg0 : g0.length = 8 := hall g0 (by simp)
    have hgs : ∀ g ∈ gs, g.length = 8 := fun g hg => hall g (by simp [hg])
    have e : (g0 :: gs).flatMap (fun g => g ++ [255]) ++ tail
        = g0 ++ (255 : Byte) :: (gs.flatMap (fun g => g ++ [255]) ++ tail) := by
      simp
    have step : decodeGroups ((g0 :: gs).flatMap (fun g => g ++ [255]) ++ tail) buf
        = decodeGroups (gs.flatMap (fun g => g ++ [255]) ++ tail) (buf ++ g0) := by
      have h255 : ((255 : Byte)).val = 255 := rfl
      rw [e, decodeGroups_group _ _ _ _ hg0, h255]
      simp
    rw [step]
    exact ih tail (buf ++ g0) hgs

theorem decodeLoop_first_error (cd : Codec) (e : GoError) (k : List Byte)
    (hk : cd.DecodeBytes k [] = .err e) :
    ∀ (pre post : List (List Byte)), (∀ p ∈ pre, ∃ r, cd.DecodeBytes p [] = .ok r) →
      RawTiKVClient.Scan.decodeLoop cd (pre ++ k :: post) = .err e := by
  intro pre
  induction pre with
  | nil =>
    intro post _
    simp [RawTiKVClient.Scan.decodeLoop, hk]
  | cons p ps ih =>
    intro post hall
    obtain ⟨r, hr⟩ := hall p (by simp)
    have hrest := ih post (fun q hq => hall q (by simp [hq]))
    obtain ⟨left, key⟩ := r
    simp [RawTiKVClient.Scan.decodeLoop, hr, hrest]

theorem decodeLoop_some_error (cd : Codec) (e : GoError) (k : List Byte)
    (hnp : ∀ b, ∀ p, cd.DecodeBytes b [] ≠ .panic p)
    (hk : cd.DecodeBytes k [] = .err e) :
    ∀ (pre post : List (List Byte)),
      ∃ e1, RawTiKVClient.Scan.decodeLoop cd (pre ++ k :: post) = .err e1 := by
  intro pre
  induction pre with
  | nil =>
    intro post
    exact ⟨e, by simp [RawTiKVClient.Scan.decodeLoop, hk]⟩
  | cons p ps ih =>
    intro post
    obtain ⟨e1, h1⟩ := ih post
    cases hp : cd.DecodeBytes p [] with
    | ok r =>
      obtain ⟨left, key⟩ := r
      exact ⟨e1, by simp [RawTiKVClient.Scan.decodeLoop, hp, h1]⟩
    | err e2 => exact ⟨e2, by simp [RawTiKVClient.Scan.decodeLoop, hp]⟩
    | panic q => exact absurd hp (hnp p q)

theorem decodeGroups_no_panic : ∀ (n : Nat) (b buf : List Byte) (p : Panic), b.length = n →
    decodeGroups b buf ≠ .panic p := by
  intro n
  induction n using Nat.strong_induction_on with
  | _ n ih =>
    intro b buf p hn
    by_cases hlt : b.length < 9
    · rw [decodeGroups_short b buf hlt]
      simp
    · have h9 : 9 ≤ b.length := by omega
      obtain ⟨g, rest, hd, hg, -, -⟩ := split_eight b (by omega)
      subst hd
      cases rest with
      | nil => simp at h9; omega
      | cons m rest =>
        rw [decodeGroups_group g m rest buf hg]
        split
        · simp
        · split
          · exact ih rest.length (by simp at hn; omega) rest _ p rfl
          · simp

/-! ## Lemmas on the comparison of byte strings -/

theorem compareBytes_self (a : List Byte) : compareBytes a a = .eq := by
  induction a with
  | nil => rfl
  | cons x xs ih => simp [compareBytes, ih]

theorem compareBytes_swap (a : List Byte) : ∀ b, compareBytes a b = (compareBytes b a).swap := by
  induction a with
  | nil =>
    intro b
    cases b <;> rfl
  | cons x xs ih =>
    intro b
    cases b with
    | nil => rfl
    | cons y ys =>
      simp only [compareBytes]
      by_cases h1 : x < y
      · have h2 : ¬ y < x := lt_asymm h1
        simp [h1, h2, Ordering.swap]
      · by_cases h2 : y < x
        · simp [h1, h2, Ordering.swap]
        · simp [h1, h2, ih ys]

theorem compareBytes_eq_iff (a : List Byte) : ∀ b, compareBytes a b = .eq ↔ a = b := by
  induction a with
  | nil =>
    intro b
    cases b <;> simp [compareBytes]
  | cons x xs ih =>
    intro b
    cases b with
    | nil => simp [compareBytes]
    | cons y ys =>
      simp only [compareBytes]
      by_cases h1 : x < y
      · have : x ≠ y := ne_of_lt h1
        simp [h1, this]
      · by_cases h2 : y < x
        · have : x ≠ y := (ne_of_lt h2).symm
          simp [h1, h2, this]
        · have hxy : x = y := le_antisymm (not_lt.mp h2) (not_lt.mp h1)
          simp [h1, h2, hxy, ih ys]

theorem compareBytes_lt_iff (a : List Byte) :
    ∀ b, compareBytes a b = .lt ↔ List.Lex (fun x y : Byte => x < y) a b := by
  induction a with
  | nil =>
    intro b
    cases b with
    | nil =>
      simp only [compareBytes]
      constructor
      · intro h; cases h
      · intro h; cases h
    | cons y ys =>
      simp only [compareBytes, true_iff]
      exact List.Lex.nil
  | cons x xs ih =>
    intro b
    cases b with
    | nil =>
      simp only [compareBytes]
      constructor
      · intro h; cases h
      · intro h; cases h
    | cons y ys =>
      simp only [compareBytes]
      by_cases h1 : x < y
      · simp only [h1, if_true, true_iff]
        exact List.Lex.rel h1
      · by_cases h2 : y < x
        · simp only [h1, h2, if_true, if_false]
          constructor
          · intro h; cases h
          · intro h
            cases h with
            | cons h => exact absurd h2 (lt_irrefl _)
            | rel h => exact absurd h h1
        · simp only [h1, h2, if_false]
          have hxy : x = y := le_antisymm (not_lt.mp h2) (not_lt.mp h1)
          subst hxy
          rw [ih ys]
          constructor
          · intro h; exact List.Lex.cons h
          · intro h
            cases h with
            | cons h => exact h
            | rel h => exact absurd h h1

theorem compareBytes_append (a : List Byte) : ∀ (b x y : List Byte), a.length = b.length →
    compareBytes (a ++ x) (b ++ y) = (compareBytes a b).then (compareBytes x y) := by
  induction a with
  | nil =>
    intro b x y h
    cases b with
    | nil => simp [compareBytes, Ordering.then]
    | cons _ _ => simp at h
  | cons c cs ih =>
    intro b x y h
    cases b with
    | nil => simp at h
    | cons d ds =>
      simp only [List.cons_append, compareBytes]
      by_cases h1 : c < d
      · simp [h1, Ordering.then]
      · by_cases h2 : d < c
        · simp [h1, h2, Ordering.then]
        · simp only [h1, h2, if_false]
          exact ih ds x y (by simpa using h)

theorem compareBytes_longer (a : List Byte) : ∀ (b y : List Byte), a.length < b.length →
    compareBytes a (b ++ y) = compareBytes a b := by
  induction a with
  | nil =>
    intro b y h
    cases b with
    | nil => simp at h
    | cons _ _ => simp [compareBytes]
  | cons c cs ih =>
    intro b y h
    cases b with
    | nil => simp at h
    | cons d ds =>
      have hlen : cs.length < ds.length := by simpa using h
      rw [List.cons_append, compareBytes, compareBytes, ih ds y hlen]

theorem compareBytes_zeros (k : Nat) : ∀ (A x : List Byte) (m m1 : Byte), A.length = k →
    m < m1 → compareBytes (List.replicate k 0 ++ [m]) (A ++ m1 :: x) = .lt := by
  induction k with
  | zero =>
    intro A x m m1 hA hm
    cases A with
    | nil => simp [compareBytes, hm]
    | cons _ _ => simp at hA
  | succ k ih =>
    intro A x m m1 hA hm
    cases A with
    | nil => simp at hA
    | cons d ds =>
      simp only [List.replicate_succ, List.cons_append, compareBytes]
      by_cases h1 : (0 : Byte) < d
      · simp [h1]
      · have h2 : ¬ d < (0 : Byte) := by
          intro h
          exact absurd h (not_lt.mpr (Fin.zero_le d))
        simp only [h1, h2, if_false]
        exact ih ds x m m1 (by simpa using hA) hm

theorem compareBytes_lt_of_shorter_nil (A : List Byte) (h : 0 < A.length) :
    compareBytes [] A = .lt := by
  cases A with
  | nil => simp at h
  | cons _ _ => rfl

theorem compareBytes_padded (a : List Byte) : ∀ (A x : List Byte) (k : Nat) (m m1 : Byte),
    A.length = a.length + k → 0 < k → m < m1 →
    compareBytes (a ++ List.replicate k 0 ++ [m]) (A ++ m1 :: x) = compareBytes a A := by
  induction a with
  | nil =>
    intro A x k m m1 hA hk hm
    rw [compareBytes_lt_of_shorter_nil A (by simp at hA; omega)]
    simpa using compareBytes_zeros k A x m m1 (by simpa using hA) hm
  | cons c cs ih =>
    intro A x k m m1 hA hk hm
    cases A with
    | nil =>
      simp only [List.length] at hA
      omega
    | cons d ds =>
      have key := ih ds x k m m1 (by simp at hA; omega) hk hm
      rw [List.cons_append, List.cons_append, List.cons_append, compareBytes, compareBytes, key]

theorem marker_lt (r s : Nat) (h : r < s) (hs : s ≤ 8) :
    (Fin.ofNat (247 + r) : Byte) < Fin.ofNat (247 + s) := by
  rw [Fin.lt_def]
  show (Fin.ofNat (247 + r) : Byte).val < (Fin.ofNat (247 + s) : Byte).val
  rw [marker_val r (by omega), marker_val s hs]
  omega

theorem marker_lt_full (r : Nat) (h : r < 8) : (Fin.ofNat (247 + r) : Byte) < 255 := by
  have := marker_lt r 8 h (le_refl 8)
  exact this

theorem compareBytes_encode_shorter (a b : List Byte) (ha : a.length < 8)
    (hab : a.length < b.length) :
    compareBytes (encodeGroups a) (encodeGroups b) = compareBytes a b := by
  by_cases hb : b.length < 8
  · rw [encodeGroups_short a ha, encodeGroups_short b hb]
    have key := compareBytes_padded a (b ++ List.replicate (8 - b.length) 0) [] (8 - a.length)
      (Fin.ofNat (247 + a.length)) (Fin.ofNat (247 + b.length))
      (by simp; omega) (by omega) (marker_lt _ _ hab (by omega))
    rw [key, compareBytes_longer a b _ hab]
  · obtain ⟨g, rest, hd, hg, -, -⟩ := split_eight b (by omega)
    subst hd
    rw [encodeGroups_short a ha, encodeGroups_full g rest hg]
    have key := compareBytes_padded a g (encodeGroups rest) (8 - a.length)
      (Fin.ofNat (247 + a.length)) 255 (by omega) (by omega) (marker_lt_full _ ha)
    rw [key, compareBytes_longer a g rest (by omega)]

theorem compareBytes_encodeGroups (n : Nat) : ∀ a b : List Byte, a.length = n →
    compareBytes (encodeGroups a) (encodeGroups b) = compareBytes a b := by
  induction n using Nat.strong_induction_on with
  | _ n ih =>
    intro a b hn
    by_cases ha : a.length < 8
    · rcases Nat.lt_trichotomy a.length b.length with h | h | h
      · exact compareBytes_encode_shorter a b ha h
      · rw [encodeGroups_short a ha, encodeGroups_short b (h ▸ ha), ← h, List.append_assoc,
          List.append_assoc, compareBytes_append a b _ _ h, compareBytes_self]
        cases compareBytes a b <;> rfl
      · rw [compareBytes_swap, compareBytes_encode_shorter b a (by omega) h,
          ← compareBytes_swap]
    · by_cases hb : b.length < 8
      · rw [compareBytes_swap, compareBytes_encode_shorter b a hb (by omega),
          ← compareBytes_swap]
      · obtain ⟨ga, ra, hda, hga, -, -⟩ := split_eight a (by omega)
        obtain ⟨gb, rb, hdb, hgb, -, -⟩ := split_eight b (by omega)
        subst hda
        subst hdb
        have hlen : (ga ++ ra).length = ra.length + 8 := by simp; omega
        have key := ih ra.length (by omega) ra rb rfl
        have hgg : ga.length = gb.length := by omega
        rw [encodeGroups_full ga ra hga, encodeGroups_full gb rb hgb,
          compareBytes_append ga gb _ _ hgg, compareBytes_append ga gb _ _ hgg]
        have hm : compareBytes (255 :: encodeGroups ra) (255 :: encodeGroups rb)
            = compareBytes (encodeGroups ra) (encodeGroups rb) := by
          simp [compareBytes]
        rw [hm, key]

/-! ## Lemmas on `strings.Index` and `strings.Replace` -/

theorem Index_ge_neg_one (p : List Char) : ∀ s, -1 ≤ strings.Index s p := by
  intro s
  induction s with
  | nil =>
    simp only [strings.Index]
    split <;> omega
  | cons c cs ih =>
    simp only [strings.Index]
    split
    · omega
    · split <;> omega

theorem Index_nonneg_iff (p : List Char) : ∀ s, 0 ≤ strings.Index s p ↔ p <:+: s := by
  intro s
  induction s with
  | nil =>
    simp only [strings.Index, List.infix_nil]
    by_cases h : p = []
    · simp [h]
    · simp [h]
  | cons c cs ih =>
    simp only [strings.Index]
    by_cases h : p.isPrefixOf (c :: cs) = true
    · rw [if_pos h]
      have hp : p <+: c :: cs := List.isPrefixOf_iff_prefix.mp h
      simp [hp.isInfix]
    · rw [if_neg h]
      have hp : ¬ p <+: c :: cs := fun hp => h (List.isPrefixOf_iff_prefix.mpr hp)
      rw [List.infix_cons_iff]
      have hge := Index_ge_neg_one p cs
      by_cases hi : strings.Index cs p < 0
      · have hn : ¬ p <:+: cs := fun hc => by
          have := ih.mpr hc
          omega
        simp [hi, hp, hn]
      · have hy : p <:+: cs := ih.mp (by omega)
        simp only [hi, if_false, hy, or_true, iff_true]
        omega

theorem Index_absent (p s : List Char) (h : ¬ p <:+: s) : strings.Index s p = -1 := by
  have h1 := Index_ge_neg_one p s
  have h2 : ¬ 0 ≤ strings.Index s p := fun hc => h ((Index_nonneg_iff p s).mp hc)
  omega

theorem Replace_loop_fuel (old new : List Char) (hne : old ≠ []) :
    ∀ (f1 f2 : Nat) (s : List Char), s.length ≤ f1 → s.length ≤ f2 →
      strings.Replace.loop old new f1 s = strings.Replace.loop old new f2 s := by
  have hpos : 0 < old.length := List.length_pos.mpr hne
  intro f1
  induction f1 with
  | zero =>
    intro f2 s h1 h2
    have hs : s = [] := List.length_eq_zero.mp (by omega)
    subst hs
    cases f2 <;> simp [strings.Replace.loop]
  | succ f ih =>
    intro f2 s h1 h2
    cases s with
    | nil => cases f2 <;> simp [strings.Replace.loop]
    | cons c cs =>
      cases f2 with
      | zero => simp at h2
      | succ g =>
        simp only [strings.Replace.loop]
        have hl1 : cs.length ≤ f := by simpa using h1
        have hl2 : cs.length ≤ g := by simpa using h2
        have hd : (List.drop old.length (c :: cs)).length ≤ cs.length := by
          simp only [List.length_drop, List.length_cons]
          omega
        rw [ih g cs hl1 hl2, ih g (List.drop old.length (c :: cs)) (by omega) (by omega)]

theorem Replace_nil (old new : List Char) (hne : old ≠ []) :
    strings.Replace [] old new = [] := by
  simp [strings.Replace, hne, strings.Replace.loop]

theorem Replace_cons_match (old new : List Char) (hne : old ≠ []) (hon : old ≠ new)
    (c : Char) (cs : List Char) (h : old <+: c :: cs) :
    strings.Replace (c :: cs) old new
      = new ++ strings.Replace (List.drop old.length (c :: cs)) old new := by
  have hpos : 0 < old.length := List.length_pos.mpr hne
  have hb : old.isPrefixOf (c :: cs) = true := List.isPrefixOf_iff_prefix.mpr h
  have hd : (List.drop old.length (c :: cs)).length ≤ cs.length := by
    simp only [List.length_drop, List.length_cons]
    omega
  simp only [strings.Replace, if_neg hon, if_neg hne, List.length_cons, strings.Replace.loop,
    if_pos hb]
  rw [Replace_loop_fuel old new hne cs.length _ _ hd (le_refl _)]

theorem Replace_cons_skip (old new : List Char) (hne : old ≠ []) (hon : old ≠ new)
    (c : Char) (cs : List Char) (h : ¬ old <+: c :: cs) :
    strings.Replace (c :: cs) old new = c :: strings.Replace cs old new := by
  have hb : ¬ old.isPrefixOf (c :: cs) = true := fun hb => h (List.isPrefixOf_iff_prefix.mp hb)
  simp only [strings.Replace, if_neg hon, if_neg hne, List.length_cons, strings.Replace.loop,
    if_neg hb]

theorem Replace_absent (old new : List Char) (hne : old ≠ []) :
    ∀ s, ¬ old <:+: s → strings.Replace s old new = s := by
  intro s
  by_cases hon : old = new
  · intro _
    simp [strings.Replace, hon]
  induction s with
  | nil => intro _; exact Replace_nil old new hne
  | cons c cs ih =>
    intro h
    have h1 : ¬ old <+: c :: cs := fun hp => h hp.isInfix
    have h2 : ¬ old <:+: cs := fun hc => h (List.infix_cons_iff.mpr (Or.inr hc))
    rw [Replace_cons_skip old new hne hon c cs h1, ih h2]

theorem infix_skip_foreign (pat : List Char) (hp : pat ≠ []) :
    ∀ (new x : List Char), (∀ c ∈ new, c ∉ pat) → pat <:+: new ++ x → pat <:+: x := by
  intro new
  induction new with
  | nil => intro x _ h; simpa using h
  | cons n ns ih =>
    intro x hdis h
    rw [List.cons_append, List.infix_cons_iff] at h
    rcases h with h | h
    · cases pat with
      | nil => exact absurd rfl hp
      | cons q qs =>
        obtain ⟨t, ht⟩ := h
        have hq : q = n := by
          have := congrArg List.head? ht
          simpa using this
        exact absurd (by simp [hq]) (hdis n (by simp))
    · exact ih x (fun c hc => hdis c (by simp [hc])) h

theorem prefix_Replace (old new : List Char) (hne : old ≠ []) (hon : old ≠ new)
    (hnew : new ≠ []) (n : Nat) :
    ∀ (s q : List Char), s.length = n → (∀ c ∈ new, c ∉ q) →
      q <+: strings.Replace s old new → q <+: s := by
  induction n using Nat.strong_induction_on with
  | _ n ih =>
    intro s q hn hdis h
    cases q with
    | nil => exact List.nil_prefix
    | cons a as =>
      cases s with
      | nil =>
        rw [Replace_nil old new hne] at h
        exact h
      | cons c cs =>
        by_cases hm : old <+: c :: cs
        · rw [Replace_cons_match old new hne hon c cs hm] at h
          cases new with
          | nil => exact absurd rfl hnew
          | cons b bs =>
            obtain ⟨t, ht⟩ := h
            have hab : a = b := by
              have := congrArg List.head? ht
              simpa using this
            exact absurd (by simp [hab]) (hdis b (by simp))
        · rw [Replace_cons_skip old new hne hon c cs hm] at h
          obtain ⟨t, ht⟩ := h
          have hac : a = c := by
            have := congrArg List.head? ht
            simpa using this
          subst hac
          have htl : as <+: strings.Replace cs old new := ⟨t, by simpa using ht⟩
          have := ih cs.length (by simp at hn; omega) cs as rfl
            (fun c hc hmem => hdis c hc (by simp [hmem])) htl
          obtain ⟨u, hu⟩ := this
          exact ⟨u, by simp [hu]⟩

theorem infix_Replace (old new : List Char) (hne : old ≠ []) (hon : old ≠ new)
    (hnew : new ≠ []) (pat : List Char) (hp : pat ≠ []) (hdis : ∀ c ∈ new, c ∉ pat)
    (n : Nat) :
    ∀ s : List Char, s.length = n → pat <:+: strings.Replace s old new → pat <:+: s := by
  induction n using Nat.strong_induction_on with
  | _ n ih =>
    intro s hn h
    cases s with
    | nil =>
      rw [Replace_nil old new hne] at h
      exact h
    | cons c cs =>
      have hpos : 0 < old.length := List.length_pos.mpr hne
      by_cases hm : old <+: c :: cs
      · rw [Replace_cons_match old new hne hon c cs hm] at h
        have h1 := infix_skip_foreign pat hp new _ hdis h
        have hd : (List.drop old.length (c :: cs)).length < n := by
          simp only [List.length_drop, List.length_cons]
          simp only [List.length_cons] at hn
          omega
        have h2 := ih _ hd _ rfl h1
        exact h2.trans (List.drop_suffix _ _).isInfix
      · rw [Replace_cons_skip old new hne hon c cs hm] at h
        rw [List.infix_cons_iff] at h
        rcases h with h | h
        · have h0 : pat <+: strings.Replace (c :: cs) old new := by
            rw [Replace_cons_skip old new hne hon c cs hm]
            exact h
          exact (prefix_Replace old new hne hon hnew _ (c :: cs) pat rfl hdis h0).isInfix
        · have h2 := ih cs.length (by simp at hn; omega) cs rfl h
          exact List.infix_cons_iff.mpr (Or.inr h2)

theorem Replace_removes (old new : List Char) (hne : old ≠ []) (hon : old ≠ new)
    (hnew : new ≠ []) (hdis : ∀ c ∈ new, c ∉ old) (n : Nat) :
    ∀ s : List Char, s.length = n → ¬ old <:+: strings.Replace s old new := by
  induction n using Nat.strong_induction_on with
  | _ n ih =>
    intro s hn h
    cases s with
    | nil =>
      rw [Replace_nil old new hne] at h
      exact hne (List.infix_nil.mp h)
    | cons c cs =>
      have hpos : 0 < old.length := List.length_pos.mpr hne
      by_cases hm : old <+: c :: cs
      · rw [Replace_cons_match old new hne hon c cs hm] at h
        have h1 := infix_skip_foreign old hne new _ hdis h
        have hd : (List.drop old.length (c :: cs)).length < n := by
          simp only [List.length_drop, List.length_cons]
          simp only [List.length_cons] at hn
          omega
        exact ih _ hd _ rfl h1
      · have h0 := h
        rw [Replace_cons_skip old new hne hon c cs hm, List.infix_cons_iff] at h
        rcases h with h | h
        · have h1 : old <+: strings.Replace (c :: cs) old new := by
            rw [Replace_cons_skip old new hne hon c cs hm]
            exact h
          exact hm (prefix_Replace old new hne hon hnew _ (c :: cs) old rfl hdis h1)
        · exact ih cs.length (by simp at hn; omega) cs rfl h

/-! ## Lemmas on the generators -/

theorem digitChar_isDigit (d : Nat) (h : d < 10) : (Nat.digitChar d).isDigit = true := by
  interval_cases d <;> rfl

theorem toDigitsCore_chars (fuel : Nat) : ∀ (n : Nat) (ds : List Char),
    (∀ c ∈ ds, c.isDigit = true) → ∀ c ∈ Nat.toDigitsCore 10 fuel n ds, c.isDigit = true := by
  induction fuel with
  | zero =>
    intro n ds h c hc
    simp only [Nat.toDigitsCore] at hc
    exact h c hc
  | succ f ih =>
    intro n ds h c hc
    have hd : (Nat.digitChar (n % 10)).isDigit = true :=
      digitChar_isDigit _ (Nat.mod_lt n (by decide))
    have hall : ∀ x ∈ Nat.digitChar (n % 10) :: ds, x.isDigit = true := by
      intro x hx
      rcases List.mem_cons.mp hx with hx | hx
      · rw [hx]; exact hd
      · exact h x hx
    simp only [Nat.toDigitsCore] at hc
    split at hc
    · exact hall c hc
    · exact ih _ _ hall c hc

theorem toDigitsCore_length_ge (fuel : Nat) : ∀ (n : Nat) (ds : List Char),
    ds.length ≤ (Nat.toDigitsCore 10 fuel n ds).length := by
  induction fuel with
  | zero =>
    intro n ds
    simp [Nat.toDigitsCore]
  | succ f ih =>
    intro n ds
    simp only [Nat.toDigitsCore]
    split
    · simp
    · have := ih (n / 10) (Nat.digitChar (n % 10) :: ds)
      simp only [List.length_cons] at this
      omega

theorem toDigits_chars (n : Nat) : ∀ c ∈ Nat.toDigits 10 n, c.isDigit = true :=
  toDigitsCore_chars (n + 1) n [] (by simp)

theorem toDigits_length_pos (n : Nat) : 0 < (Nat.toDigits 10 n).length := by
  unfold Nat.toDigits
  simp only [Nat.toDigitsCore]
  split
  · simp
  · have := toDigitsCore_length_ge n (n / 10) [Nat.digitChar (n % 10)]
    simp only [List.length_cons, List.length_nil] at this
    omega

theorem toDigits_length_le (n e : Nat) (he : 0 < e) (h : n < 10 ^ e) :
    (Nat.toDigits 10 n).length ≤ e :=
  Nat.toDigitsCore_length 10 (by decide) (n + 1) n e h he

theorem FormatInt_length_pos (v : Int) : 0 < (FormatInt v).length := by
  unfold FormatInt
  split
  · simp
  · exact toDigits_length_pos _

theorem FormatInt_nonneg (v : Int) (h : 0 ≤ v) : FormatInt v = Nat.toDigits 10 v.toNat := by
  unfold FormatInt
  rw [if_neg (by omega)]

theorem FormatInt_chars (v : Int) : ∀ c ∈ FormatInt v, c.isDigit = true ∨ c = '-' := by
  intro c hc
  unfold FormatInt at hc
  split at hc
  · rcases List.mem_cons.mp hc with hc | hc
    · exact Or.inr hc
    · exact Or.inl (toDigits_chars _ c hc)
  · exact Or.inl (toDigits_chars _ c hc)

theorem fillTable_get (i : Nat) (h : i < 16) :
    fillTable.get? i = some (List.replicate i '0') := by
  interval_cases i <;> rfl

theorem fill_eq (s : List Char) (h : 0 < s.length) :
    fill fillTable s = .ok (List.replicate (16 - s.length) '0' ++ s) := by
  have hl : fillTable.length = 16 := rfl
  unfold fill
  simp only [hl]
  by_cases hlen : 16 ≤ s.length
  · have h0 : 16 - s.length = 0 := by omega
    have hf : ((16 : Nat) : Int) - (s.length : Int) ≤ 0 := by omega
    rw [if_pos hf, h0]
    simp
  · have hf : ¬ ((16 : Nat) : Int) - (s.length : Int) ≤ 0 := by omega
    have ht : (((16 : Nat) : Int) - (s.length : Int)).toNat = 16 - s.length := by omega
    rw [if_neg hf, ht, fillTable_get (16 - s.length) (by omega)]

theorem digitChar_value (d : Nat) (h : d < 10) : (Nat.digitChar d).toNat - '0'.toNat = d := by
  interval_cases d <;> rfl

theorem toDigitsCore_acc (fuel : Nat) : ∀ (n : Nat) (ds : List Char),
    Nat.toDigitsCore 10 fuel n ds = Nat.toDigitsCore 10 fuel n [] ++ ds := by
  induction fuel with
  | zero =>
    intro n ds
    simp [Nat.toDigitsCore]
  | succ f ih =>
    intro n ds
    simp only [Nat.toDigitsCore]
    split
    · simp
    · rw [ih (n / 10) (Nat.digitChar (n % 10) :: ds), ih (n / 10) [Nat.digitChar (n % 10)]]
      simp

theorem decimalValue_snoc (s : List Char) (c : Char) :
    decimalValue (s ++ [c]) = 10 * decimalValue s + (c.toNat - '0'.toNat) := by
  simp [decimalValue, List.foldl_append]

theorem decimalValue_toDigitsCore (fuel : Nat) : ∀ n : Nat, n < fuel →
    decimalValue (Nat.toDigitsCore 10 fuel n []) = n := by
  induction fuel with
  | zero => intro n h; omega
  | succ f ih =>
    intro n h
    simp only [Nat.toDigitsCore]
    split
    · rename_i h0
      have hn : n % 10 = n := by omega
      have hd := digitChar_value (n % 10) (Nat.mod_lt n (by decide))
      simp only [decimalValue, List.foldl_cons, List.foldl_nil]
      omega
    · rename_i h0
      rw [toDigitsCore_acc, decimalValue_snoc, ih (n / 10) (by omega),
        digitChar_value (n % 10) (Nat.mod_lt n (by decide))]
      omega

theorem decimalValue_toDigits (n : Nat) : decimalValue (Nat.toDigits 10 n) = n :=
  decimalValue_toDigitsCore (n + 1) n (by omega)

theorem decimalValue_zeros (k : Nat) (s : List Char) :
    decimalValue (List.replicate k '0' ++ s) = decimalValue s := by
  induction k with
  | zero => simp
  | succ k ih =>
    have e : List.replicate (k + 1) '0' ++ s = '0' :: (List.replicate k '0' ++ s) := by
      simp [List.replicate_succ]
    rw [e]
    have step : ∀ t : List Char, decimalValue ('0' :: t) = decimalValue t := by
      intro t
      simp [decimalValue]
    rw [step, ih]

theorem toDigitsCore_length_lower (k : Nat) : ∀ (fuel n : Nat), n < fuel → 10 ^ k ≤ n →
    k + 1 ≤ (Nat.toDigitsCore 10 fuel n []).length := by
  induction k with
  | zero =>
    intro fuel n hf _
    cases fuel with
    | zero => omega
    | succ f =>
      simp only [Nat.toDigitsCore]
      split
      · simp
      · have := toDigitsCore_length_ge f (n / 10) [Nat.digitChar (n % 10)]
        simp only [List.length_cons, List.length_nil] at this
        omega
  | succ k ih =>
    intro fuel n hf hn
    cases fuel with
    | zero => omega
    | succ f =>
      have hpow : 10 ^ (k + 1) = 10 * 10 ^ k := by ring
      have hq : 10 ^ k ≤ n / 10 := by
        rw [hpow] at hn
        omega
      have hpos : 0 < 10 ^ k := Nat.pos_pow_of_pos k (by decide)
      have hne : ¬ n / 10 = 0 := by omega
      simp only [Nat.toDigitsCore, if_neg hne]
      rw [toDigitsCore_acc]
      have := ih f (n / 10) (by omega) hq
      simp only [List.length_append, List.length_cons, List.length_nil]
      omega

theorem toDigits_bounds (n : Nat) :
    n < 10 ^ (Nat.toDigits 10 n).length ∧
      (0 < n → 10 ^ ((Nat.toDigits 10 n).length - 1) ≤ n) := by
  constructor
  · by_contra hc
    have := toDigitsCore_length_lower (Nat.toDigits 10 n).length (n + 1) n (by omega)
      (by omega)
    unfold Nat.toDigits at this
    omega
  · intro hpos
    by_contra hc
    have hlt : n < 10 ^ ((Nat.toDigits 10 n).length - 1) := by omega
    have hlen := toDigits_length_pos n
    by_cases h1 : (Nat.toDigits 10 n).length - 1 = 0
    · rw [h1] at hlt
      simp at hlt
      omega
    · have := toDigits_length_le n ((Nat.toDigits 10 n).length - 1) (by omega) hlt
      omega

theorem wrapInt64_id (x : Int) (h0 : -(2 ^ 63) ≤ x) (h1 : x < 2 ^ 63) : wrapInt64 x = x := by
  unfold wrapInt64
  have e : (2 : Int) ^ 64 = 2 ^ 63 + 2 ^ 63 := by norm_num
  rw [Int.emod_eq_of_lt (by omega) (by omega)]
  omega

theorem seq_after (begin : Int) (h0 : 0 ≤ begin) : ∀ n : Nat, begin + n < 2 ^ 63 →
    ((seqCreater begin).after n).v = begin + n := by
  intro n
  induction n with
  | zero => intro _; simp [SeqGen.after, seqCreater]
  | succ n ih =>
    intro h
    have hp : begin + (n : Int) < 2 ^ 63 := by push_cast at h; omega
    have hv := ih hp
    simp only [SeqGen.after, SeqGen.call, hv]
    push_cast at h
    have hpow : (0 : Int) < 2 ^ 63 := by norm_num
    rw [wrapInt64_id _ (by omega) (by omega)]
    push_cast
    ring

/-! ## The codec: format, round trip, order, corruption -/

/-- C3. Encoding format: for `data` of length `n`, `EncodeBytes(nil, data)` is, for each of the
`n / 8` full 8-byte chunks, the chunk followed by marker 255, then one final group made of
the remaining `n % 8` bytes, `8 - n % 8` zero bytes and the marker `247 + n % 8`. The output
length is `9 * (n / 8 + 1)`, every marker before the last is 255, the last marker is
`247 + n % 8`, which is below 255. The four documented vectors are encoded as written. -/
theorem EncodeBytes_format (data : List Byte) :
    TiKVCodec.EncodeBytes [] data =
        (List.range (data.length / 8)).flatMap
            (fun i => (data.drop (8 * i)).take 8 ++ [255])
          ++ (data.drop (8 * (data.length / 8)) ++ List.replicate (8 - data.length % 8) 0
                ++ [Fin.ofNat (247 + data.length % 8)])
    ∧ (∀ i, i < data.length / 8 → ((data.drop (8 * i)).take 8).length = 8)
    ∧ (data.drop (8 * (data.length / 8))).length = data.length % 8
    ∧ (TiKVCodec.EncodeBytes [] data).length = 9 * (data.length / 8 + 1)
    ∧ (∀ j, j < data.length / 8 → (TiKVCodec.EncodeBytes [] data)[9 * j + 8]? = some 255)
    ∧ (TiKVCodec.EncodeBytes [] data)[9 * (data.length / 8) + 8]?
        = some (Fin.ofNat (247 + data.length % 8))
    ∧ (Fin.ofNat (247 + data.length % 8) : Byte) < 255
    ∧ ((Fin.ofNat (247 + data.length % 8) : Byte)).val = 247 + data.length % 8
    ∧ TiKVCodec.EncodeBytes [] [] = [0, 0, 0, 0, 0, 0, 0, 0, 247]
    ∧ TiKVCodec.EncodeBytes [] [1, 2, 3] = [1, 2, 3, 0, 0, 0, 0, 0, 250]
    ∧ TiKVCodec.EncodeBytes [] [1, 2, 3, 0] = [1, 2, 3, 0, 0, 0, 0, 0, 251]
    ∧ TiKVCodec.EncodeBytes [] [1, 2, 3, 4, 5, 6, 7, 8]
        = [1, 2, 3, 4, 5, 6, 7, 8, 255, 0, 0, 0, 0, 0, 0, 0, 0, 247] := by
  have he : TiKVCodec.EncodeBytes [] data = encodeGroups data := by
    simp [TiKVCodec.EncodeBytes, codec.EncodeBytes]
  have hmod : data.length % 8 < 8 := Nat.mod_lt _ (by decide)
  refine ⟨?_, ?_, ?_, ?_, ?_, ?_, ?_, ?_, ?_, ?_, ?_, ?_⟩
  · rw [he]
    exact encodeGroups_closed data.length data rfl
  · intro i hi
    simp only [List.length_take, List.length_drop]
    omega
  · simp only [List.length_drop]
    omega
  · rw [he]
    exact encodeGroups_length data.length data rfl
  · intro j hj
    rw [he]
    exact encodeGroups_marker_full j data hj
  · rw [he]
    exact encodeGroups_marker_last data.length data rfl
  · exact marker_lt_full _ hmod
  · exact marker_val _ (by omega)
  · decide
  · decide
  · decide
  · decide

/-- C1. Round trip with leftover: for every byte sequence `k` and every trailing byte
sequence `t`, decoding `EncodeBytes(nil, k) ++ t` succeeds with leftover exactly `t` and
decoded value exactly `k`; with `t` empty, decoding a standalone encoded value returns `k`
with no leftover bytes. -/
theorem DecodeBytes_EncodeBytes (k t : List Byte) :
    TiKVCodec.DecodeBytes (TiKVCodec.EncodeBytes [] k ++ t) [] = .ok (t, k)
    ∧ TiKVCodec.DecodeBytes (TiKVCodec.EncodeBytes [] k) [] = .ok ([], k) := by
  have he : TiKVCodec.EncodeBytes [] k = encodeGroups k := by
    simp [TiKVCodec.EncodeBytes, codec.EncodeBytes]
  have key : ∀ u : List Byte, decodeGroups (encodeGroups k ++ u) [] = .ok (u, k) := by
    intro u
    simpa using decodeGroups_encodeGroups k.length k u [] rfl
  constructor
  · rw [he]
    exact key t
  · rw [he]
    simpa using key []

/-- C2. Order preservation: for every pair of byte sequences `a`, `b`, the unsigned
lexicographic comparison of `a` with `b` (a proper prefix below its extension) has the same
result as the comparison of `EncodeBytes(nil, a)` with `EncodeBytes(nil, b)`; hence `a < b`
iff `encode(a) < encode(b)` in the lexicographic order, and `a = b` iff
`encode(a) = encode(b)`. For `a = [1,2,3]`, `b = [1,2,3,0]` both comparisons give "less". -/
theorem EncodeBytes_order (a b : List Byte) :
    compareBytes a b
        = compareBytes (TiKVCodec.EncodeBytes [] a) (TiKVCodec.EncodeBytes [] b)
    ∧ (List.Lex (fun x y : Byte => x < y) a b ↔
        List.Lex (fun x y : Byte => x < y)
          (TiKVCodec.EncodeBytes [] a) (TiKVCodec.EncodeBytes [] b))
    ∧ (a = b ↔ TiKVCodec.EncodeBytes [] a = TiKVCodec.EncodeBytes [] b)
    ∧ compareBytes [1, 2, 3] [1, 2, 3, 0] = .lt
    ∧ compareBytes (TiKVCodec.EncodeBytes [] [1, 2, 3]) (TiKVCodec.EncodeBytes [] [1, 2, 3, 0])
        = .lt := by
  have he : ∀ x : List Byte, TiKVCodec.EncodeBytes [] x = encodeGroups x := by
    intro x
    simp [TiKVCodec.EncodeBytes, codec.EncodeBytes]
  have key := compareBytes_encodeGroups a.length a b rfl
  refine ⟨?_, ?_, ?_, ?_, ?_⟩
  · rw [he, he, key]
  · rw [he, he, ← compareBytes_lt_iff, ← compareBytes_lt_iff, key]
  · rw [he, he, ← compareBytes_eq_iff, ← compareBytes_eq_iff, key]
  · decide
  · decide

/-- C9. Decode corruption is rejected: let `b` consist of any number of groups with marker 255
followed by `tail`. If fewer than 9 bytes remain in `tail` (so in particular whenever
`len(b) < 9`, or when `b` is made only of groups with marker 255), or `tail` starts with a
group whose marker is below 247, `DecodeBytes(b, nil)` returns an error and no value; when
the store hands such a key back, `Scan` returns an error and no keys or values, and that
error is the one of this key when the keys before it decode. -/
theorem DecodeBytes_corrupt (groups : List (List Byte)) (tail : List Byte)
    (hgroups : ∀ g ∈ groups, g.length = 8)
    (hbad : tail.length < 9 ∨ ∃ g m rest, tail = g ++ m :: rest ∧ g.length = 8 ∧ m < 247) :
    ∃ e, (e = GoError.insufficientBytes ∨ e = GoError.invalidMarker)
      ∧ (tail.length < 9 → e = GoError.insufficientBytes)
      ∧ TiKVCodec.DecodeBytes (groups.flatMap (fun g => g ++ [255]) ++ tail) [] = .err e
      ∧ ∀ (raw : RawKVClient) (mvcc : Bool) (startKey : List Byte) (limit : Int)
          (pre post vals : List (List Byte)),
          raw.Scan (TiKVCodec.EncodeBytes [] startKey) limit
              = .ok (pre ++ (groups.flatMap (fun g => g ++ [255]) ++ tail) :: post, vals) →
          (∃ e1, RawTiKVClient.Scan
              { raw := some raw, mvcc := mvcc, codec := some TiKVCodec.asCodec } startKey limit
                = .err e1)
          ∧ ((∀ p ∈ pre, ∃ r, TiKVCodec.DecodeBytes p [] = .ok r) →
              RawTiKVClient.Scan
                { raw := some raw, mvcc := mvcc, codec := some TiKVCodec.asCodec }
                startKey limit = .err e) := by
  have hdec : ∃ e, (e = GoError.insufficientBytes ∨ e = GoError.invalidMarker)
      ∧ (tail.length < 9 → e = GoError.insufficientBytes)
      ∧ TiKVCodec.DecodeBytes (groups.flatMap (fun g => g ++ [255]) ++ tail) [] = .err e := by
    have hc := decodeGroups_corrupt groups tail [] hgroups
    by_cases hshort : tail.length < 9
    · exact ⟨_, Or.inl rfl, fun _ => rfl, hc.1 hshort⟩
    · rcases hbad with h | ⟨g, m, rest, ht, hg, hm⟩
      · exact absurd h hshort
      · exact ⟨_, Or.inr rfl, fun h => absurd h hshort, hc.2 g m rest ht hg hm⟩
  obtain ⟨e, hkind, hshort, he⟩ := hdec
  refine ⟨e, hkind, hshort, he, ?_⟩
  intro raw mvcc startKey limit pre post vals hscan
  have hscan2 : raw.Scan (TiKVCodec.asCodec.EncodeBytes [] startKey) limit
      = .ok (pre ++ (groups.flatMap (fun g => g ++ [255]) ++ tail) :: post, vals) := hscan
  have hnp : ∀ b, ∀ p, TiKVCodec.asCodec.DecodeBytes b [] ≠ .panic p := by
    intro b p
    exact decodeGroups_no_panic b.length b [] p rfl
  constructor
  · obtain ⟨e1, h1⟩ := decodeLoop_some_error TiKVCodec.asCodec e _ hnp he pre post
    exact ⟨e1, by simp only [RawTiKVClient.Scan, hscan2, h1]⟩
  · intro hpre
    have h1 := decodeLoop_first_error TiKVCodec.asCodec e _ he pre post hpre
    simp only [RawTiKVClient.Scan, hscan2, h1]

/-- Witness for C9: one full group `[1..8],255` followed by a group whose marker is 5, which
is below 247. -/
theorem DecodeBytes_corrupt_witness :
    (∀ g ∈ ([[1, 2, 3, 4, 5, 6, 7, 8]] : List (List Byte)), g.length = 8)
    ∧ (∃ g m rest, ([0, 0, 0, 0, 0, 0, 0, 0, 5] : List Byte) = g ++ m :: rest
        ∧ g.length = 8 ∧ m < 247)
    ∧ ∃ e, (e = GoError.insufficientBytes ∨ e = GoError.invalidMarker)
      ∧ (([0, 0, 0, 0, 0, 0, 0, 0, 5] : List Byte).length < 9 → e = GoError.insufficientBytes)
      ∧ TiKVCodec.DecodeBytes
          (([[1, 2, 3, 4, 5, 6, 7, 8]] : List (List Byte)).flatMap (fun g => g ++ [255])
            ++ [0, 0, 0, 0, 0, 0, 0, 0, 5]) []
          = .err e
      ∧ ∀ (raw : RawKVClient) (mvcc : Bool) (startKey : List Byte) (limit : Int)
          (pre post vals : List (List Byte)),
          raw.Scan (TiKVCodec.EncodeBytes [] startKey) limit
              = .ok (pre ++ (([[1, 2, 3, 4, 5, 6, 7, 8]] : List (List Byte)).flatMap
                        (fun g => g ++ [255])
                      ++ [0, 0, 0, 0, 0, 0, 0, 0, 5]) :: post, vals) →
          (∃ e1, RawTiKVClient.Scan
              { raw := some raw, mvcc := mvcc, codec := some TiKVCodec.asCodec } startKey limit
                = .err e1)
          ∧ ((∀ p ∈ pre, ∃ r, TiKVCodec.DecodeBytes p [] = .ok r) →
              RawTiKVClient.Scan
                { raw := some raw, mvcc := mvcc, codec := some TiKVCodec.asCodec }
                startKey limit = .err e) :=
  ⟨by simp, ⟨[0, 0, 0, 0, 0, 0, 0, 0], 5, [], rfl, rfl, by decide⟩,
    DecodeBytes_corrupt [[1, 2, 3, 4, 5, 6, 7, 8]] [0, 0, 0, 0, 0, 0, 0, 0, 5] (by simp)
      (Or.inr ⟨[0, 0, 0, 0, 0, 0, 0, 0], 5, [], rfl, rfl, by decide⟩)⟩

/-! ## Command dispatch and scan without a codec -/

/-- C4 (code at the failing input). For a name that is not in `commands`, here `"foo"`, with
any arguments, `Call` does not return a usage error: the lookup fails, the error value is
built and dropped, the arity test `len(args) < 0` is false, and the nil `Proc` is called,
which is a run-time panic. Too few arguments for a known command do give the usage error:
`set` with 0 or 1 argument, `get`, `delete`, `scan` with none. -/
theorem Call_unknown_command (opt : Options) (args : List String) :
    Call opt ("foo" :: args) = .panicked .nilDereference
    ∧ commands "foo" = none
    ∧ Call opt ["set"] = .returned (.usage "wrong number of args")
    ∧ Call opt ["set", "k"] = .returned (.usage "wrong number of args")
    ∧ Call opt ["get"] = .returned (.usage "wrong number of args")
    ∧ Call opt ["delete"] = .returned (.usage "wrong number of args")
    ∧ Call opt ["scan"] = .returned (.usage "wrong number of args") := by
  have h0 : commands "foo" = none := by decide
  refine ⟨?_, h0, ?_, ?_, ?_, ?_, ?_⟩
  · have hlen : ¬ ((args.length : Int) < 0) := by omega
    simp only [Call, h0, if_neg hlen]
  all_goals rfl

/-- C5 (code at the failing input). A client built by `NewRawTiKVClient` with no option has a
nil codec, and `Scan` on it, for every store, start key and limit, neither returns an error
nor a result: its first statement calls a method through the nil codec, a run-time panic. -/
theorem Scan_without_codec (raw : RawKVClient) (startKey : List Byte) (limit : Int) :
    ∃ c, NewRawTiKVClient (.ok raw) [] = .ok c
      ∧ c.codec.isNone = true
      ∧ RawTiKVClient.Scan c startKey limit = .panic .nilDereference :=
  ⟨{ raw := some raw, mvcc := false, codec := none }, rfl, rfl, rfl⟩

/-! ## The generators -/

theorem seq_call_eq (g : SeqGen) :
    g.call = (.ok (List.replicate (16 - (FormatInt g.v).length) '0' ++ FormatInt g.v),
      { v := wrapInt64 (g.v + 1) }) := by
  simp only [SeqGen.call, fill_eq _ (FormatInt_length_pos g.v)]

theorem seq_nth_eq (begin : Int) (n : Nat) (h0 : 0 ≤ begin) (h1 : begin + n < 2 ^ 63) :
    (seqCreater begin).nth n
        = .ok (List.replicate (16 - (FormatInt (begin + n)).length) '0' ++ FormatInt (begin + n))
    ∧ ((decimalValue (List.replicate (16 - (FormatInt (begin + n)).length) '0'
          ++ FormatInt (begin + n)) : Nat) : Int) = begin + n := by
  constructor
  · simp only [SeqGen.nth, seq_call_eq, seq_after begin h0 n h1]
  · rw [decimalValue_zeros, FormatInt_nonneg _ (by omega), decimalValue_toDigits]
    omega

/-- C6. Sequential generator: for `begin >= 0` and `begin + n` within `int64`, before call
number `n` (from 0) the counter holds `begin + n`, and the call returns the decimal digits of
`begin + n` with `'0'` characters in front up to 16 characters, or the digits alone when there
are 16 or more; the returned string reads back as `begin + n`, so calls number `m` and `n`
with `m ≠ n` return different strings; the first call for `begin = 0` returns
`"0000000000000000"`. -/
theorem seqCreater_nth (begin : Int) (n : Nat) (h0 : 0 ≤ begin) (h1 : begin + n < 2 ^ 63) :
    ((seqCreater begin).after n).v = begin + n
    ∧ (seqCreater begin).nth n
        = .ok (List.replicate (16 - (FormatInt (begin + n)).length) '0' ++ FormatInt (begin + n))
    ∧ FormatInt (begin + n) = Nat.toDigits 10 (begin + n).toNat
    ∧ (∀ c ∈ FormatInt (begin + n), c.isDigit = true)
    ∧ ((decimalValue (FormatInt (begin + n)) : Nat) : Int) = begin + n
    ∧ ((FormatInt (begin + n)).length < 16 →
        (List.replicate (16 - (FormatInt (begin + n)).length) '0'
          ++ FormatInt (begin + n)).length = 16)
    ∧ (16 ≤ (FormatInt (begin + n)).length →
        (seqCreater begin).nth n = .ok (FormatInt (begin + n)))
    ∧ (∀ m : Nat, begin + m < 2 ^ 63 → m ≠ n →
        (seqCreater begin).nth m ≠ (seqCreater begin).nth n)
    ∧ (seqCreater 0).nth 0 = .ok "0000000000000000".toList := by
  have hnn : (0 : Int) ≤ begin + n := by omega
  have hfmt := FormatInt_nonneg (begin + n) hnn
  obtain ⟨hnth, hval⟩ := seq_nth_eq begin n h0 h1
  refine ⟨seq_after begin h0 n h1, hnth, hfmt, ?_, ?_, ?_, ?_, ?_, ?_⟩
  · rw [hfmt]
    exact toDigits_chars _
  · rw [hfmt, decimalValue_toDigits]
    omega
  · intro hlt
    simp only [List.length_append, List.length_replicate]
    omega
  · intro hge
    have hz : 16 - (FormatInt (begin + n)).length = 0 := by omega
    rw [hnth, hz]
    simp
  · intro m hm hne heq
    obtain ⟨hnthm, hvalm⟩ := seq_nth_eq begin m h0 hm
    rw [hnth, hnthm] at heq
    have heq2 := Result.ok.inj heq
    rw [heq2] at hvalm
    have : (m : Int) = n := by omega
    exact hne (by exact_mod_cast this)
  · rfl

/-- Witness for C6: `begin = 41`, call number 1. -/
theorem seqCreater_nth_witness :
    (0 : Int) ≤ 41 ∧ (41 : Int) + (1 : Nat) < 2 ^ 63
    ∧ ((seqCreater 41).after 1).v = 41 + (1 : Nat)
    ∧ (seqCreater 41).nth 1
        = .ok (List.replicate (16 - (FormatInt (41 + (1 : Nat))).length) '0'
            ++ FormatInt (41 + (1 : Nat)))
    ∧ FormatInt (41 + (1 : Nat)) = Nat.toDigits 10 ((41 : Int) + (1 : Nat)).toNat
    ∧ (∀ c ∈ FormatInt (41 + (1 : Nat)), c.isDigit = true)
    ∧ ((decimalValue (FormatInt (41 + (1 : Nat))) : Nat) : Int) = 41 + (1 : Nat)
    ∧ ((FormatInt (41 + (1 : Nat))).length < 16 →
        (List.replicate (16 - (FormatInt (41 + (1 : Nat))).length) '0'
          ++ FormatInt (41 + (1 : Nat))).length = 16)
    ∧ (16 ≤ (FormatInt (41 + (1 : Nat))).length →
        (seqCreater 41).nth 1 = .ok (FormatInt (41 + (1 : Nat))))
    ∧ (∀ m : Nat, (41 : Int) + m < 2 ^ 63 → m ≠ 1 →
        (seqCreater 41).nth m ≠ (seqCreater 41).nth 1)
    ∧ (seqCreater 0).nth 0 = .ok "0000000000000000".toList :=
  ⟨by decide, by norm_num, seqCreater_nth 41 1 (by decide) (by norm_num)⟩

theorem rand_call_eq (src : RandSource) :
    (randCreater 10000000000000000).call src
      = .ok (List.replicate (16 - (FormatInt (src.draws src.drawn)).length) '0'
              ++ FormatInt (src.draws src.drawn),
            { src with drawn := src.drawn + 1 }) := by
  have hmax : ¬ ((10000000000000000 : Int) ≤ 0) := by norm_num
  simp only [RandGen.call, randCreater, Int63n, if_neg hmax,
    fill_eq _ (FormatInt_length_pos (src.draws src.drawn))]

/-- C7. Random generator width: when the draw `r` of `rand.Int63n(10^16)` satisfies
`0 <= r < 10^16`, the generator of `randCreater(10^16)` returns a string of exactly 16
characters, all decimal digits: `16 - d` characters `'0'` followed by the `d` decimal digits
of `r`, with `1 <= d <= 16`; `d` is the digit count of `r` (`r < 10^d`, and
`10^(d-1) <= r` for `r > 0`) and the digits read back as `r`, so nothing is cut off; the
index `16 - d` used on the padding table is inside the table whenever it is used. -/
theorem randCreater_width (src : RandSource) (h0 : 0 ≤ src.draws src.drawn)
    (h1 : src.draws src.drawn < 10 ^ 16) :
    ∃ d : Nat, d = (FormatInt (src.draws src.drawn)).length ∧ 1 ≤ d ∧ d ≤ 16
      ∧ (randCreater 10000000000000000).call src
          = .ok (List.replicate (16 - d) '0' ++ FormatInt (src.draws src.drawn),
                { src with drawn := src.drawn + 1 })
      ∧ (List.replicate (16 - d) '0' ++ FormatInt (src.draws src.drawn)).length = 16
      ∧ (∀ c ∈ List.replicate (16 - d) '0' ++ FormatInt (src.draws src.drawn),
            c.isDigit = true)
      ∧ ((decimalValue (FormatInt (src.draws src.drawn)) : Nat) : Int) = src.draws src.drawn
      ∧ src.draws src.drawn < 10 ^ d
      ∧ (0 < src.draws src.drawn → 10 ^ (d - 1) ≤ src.draws src.drawn)
      ∧ 16 - d < fillTable.length
      ∧ fillTable.get? (16 - d) = some (List.replicate (16 - d) '0') := by
  have hfmt := FormatInt_nonneg (src.draws src.drawn) h0
  have hr : ((src.draws src.drawn).toNat : Int) = src.draws src.drawn := Int.toNat_of_nonneg h0
  have hlt : (src.draws src.drawn).toNat < 10 ^ 16 := by
    have : ((src.draws src.drawn).toNat : Int) < 10 ^ 16 := by rw [hr]; exact h1
    exact_mod_cast this
  have hpos := toDigits_length_pos (src.draws src.drawn).toNat
  have hle := toDigits_length_le (src.draws src.drawn).toNat 16 (by decide) hlt
  have hb := toDigits_bounds (src.draws src.drawn).toNat
  refine ⟨(FormatInt (src.draws src.drawn)).length, rfl, ?_, ?_, rand_call_eq src, ?_, ?_, ?_,
    ?_, ?_, ?_, ?_⟩
  · rw [hfmt]; exact hpos
  · rw [hfmt]; exact hle
  · rw [hfmt]
    simp only [List.length_append, List.length_replicate]
    omega
  · intro c hc
    rcases List.mem_append.mp hc with hc | hc
    · rw [List.eq_of_mem_replicate hc]
      rfl
    · rw [hfmt] at hc
      exact toDigits_chars _ c hc
  · rw [hfmt, decimalValue_toDigits]
    exact hr
  · rw [hfmt, ← hr]
    exact_mod_cast hb.1
  · intro hp
    rw [hfmt, ← hr]
    have hp2 : 0 < (src.draws src.drawn).toNat := by omega
    exact_mod_cast hb.2 hp2
  · have hl : fillTable.length = 16 := rfl
    rw [hl, hfmt]
    omega
  · rw [hfmt]
    exact fillTable_get _ (by omega)

/-! ## Place-holder expansion -/

theorem seqPlaceHolder_chars : ∀ c ∈ seqPlaceHolder, ¬ (c.isDigit = true ∨ c = '-') := by
  decide

theorem randPlaceHolder_chars : ∀ c ∈ randPlaceHolder, ¬ (c.isDigit = true ∨ c = '-') := by
  decide

theorem seqPlaceHolder_ne_nil : seqPlaceHolder ≠ [] := by decide

theorem randPlaceHolder_ne_nil : randPlaceHolder ≠ [] := by decide

theorem padded_chars (v : Int) :
    ∀ c ∈ List.replicate (16 - (FormatInt v).length) '0' ++ FormatInt v,
      c.isDigit = true ∨ c = '-' := by
  intro c hc
  rcases List.mem_append.mp hc with hc | hc
  · rw [List.eq_of_mem_replicate hc]
    exact Or.inl rfl
  · exact FormatInt_chars v c hc

theorem padded_ne_nil (v : Int) :
    List.replicate (16 - (FormatInt v).length) '0' ++ FormatInt v ≠ [] := by
  intro h
  have hl := congrArg List.length h
  have hp := FormatInt_length_pos v
  simp only [List.length_append, List.length_replicate, List.length_nil] at hl
  omega

theorem foreign_of_chars (ph new : List Char)
    (hph : ∀ c ∈ ph, ¬ (c.isDigit = true ∨ c = '-'))
    (hnew : ∀ c ∈ new, c.isDigit = true ∨ c = '-') : ∀ c ∈ new, c ∉ ph :=
  fun c hc hmem => hph c hmem (hnew c hc)

theorem ne_of_foreign (old new : List Char) (hne : old ≠ []) (hdis : ∀ c ∈ new, c ∉ old) :
    old ≠ new := by
  intro h
  cases old with
  | nil => exact hne rfl
  | cons a as =>
    have ha : a ∈ new := by rw [← h]; simp
    exact hdis a ha (by simp)

theorem seq_eq (w : World) :
    seq w = .ok (List.replicate (16 - (FormatInt w.seqGen.v).length) '0' ++ FormatInt w.seqGen.v,
      { w with seqGen := { v := wrapInt64 (w.seqGen.v + 1) } }) := by
  simp only [seq, seq_call_eq]

theorem random_eq (w : World) :
    random w
      = .ok (List.replicate (16 - (FormatInt (w.src.draws w.src.drawn)).length) '0'
              ++ FormatInt (w.src.draws w.src.drawn),
            { w with src := { w.src with drawn := w.src.drawn + 1 } }) := by
  simp only [random, rand_call_eq]

theorem replace_eq (s : List Char) (w : World) :
    replace s w =
      .ok (strings.Replace
            (strings.Replace s seqPlaceHolder
              (List.replicate (16 - (FormatInt w.seqGen.v).length) '0' ++ FormatInt w.seqGen.v))
            randPlaceHolder
            (List.replicate (16 - (FormatInt (w.src.draws w.src.drawn)).length) '0'
              ++ FormatInt (w.src.draws w.src.drawn)),
          { seqGen := if strings.Index s seqPlaceHolder ≥ 0
              then { v := wrapInt64 (w.seqGen.v + 1) } else w.seqGen,
            src := if strings.Index (strings.Replace s seqPlaceHolder
                (List.replicate (16 - (FormatInt w.seqGen.v).length) '0'
                  ++ FormatInt w.seqGen.v)) randPlaceHolder ≥ 0
              then { w.src with drawn := w.src.drawn + 1 } else w.src }) := by
  by_cases h1 : strings.Index s seqPlaceHolder ≥ 0
  · by_cases h2 : strings.Index (strings.Replace s seqPlaceHolder
        (List.replicate (16 - (FormatInt w.seqGen.v).length) '0' ++ FormatInt w.seqGen.v))
        randPlaceHolder ≥ 0
    · simp only [replace, if_pos h1, replaceSeq, seq_eq, if_pos h2, replaceRand, random_eq]
    · have habs : ¬ randPlaceHolder <:+: strings.Replace s seqPlaceHolder
          (List.replicate (16 - (FormatInt w.seqGen.v).length) '0' ++ FormatInt w.seqGen.v) :=
        fun hc => h2 ((Index_nonneg_iff _ _).mpr hc)
      simp only [replace, if_pos h1, replaceSeq, seq_eq, if_neg h2]
      rw [Replace_absent randPlaceHolder _ randPlaceHolder_ne_nil _ habs]
  · have habs1 : ¬ seqPlaceHolder <:+: s := fun hc => h1 ((Index_nonneg_iff _ _).mpr hc)
    have hr1 : ∀ v, strings.Replace s seqPlaceHolder v = s :=
      fun v => Replace_absent seqPlaceHolder v seqPlaceHolder_ne_nil s habs1
    by_cases h2 : strings.Index s randPlaceHolder ≥ 0
    · simp only [replace, if_neg h1, hr1, if_pos h2, replaceRand, random_eq]
    · have habs : ¬ randPlaceHolder <:+: s := fun hc => h2 ((Index_nonneg_iff _ _).mpr hc)
      simp only [replace, if_neg h1, hr1, if_neg h2]
      rw [Replace_absent randPlaceHolder _ randPlaceHolder_ne_nil _ habs]

theorem replace_seq_only (s : List Char) (v : Int) (src : RandSource) (out : List Char)
    (v1 : Int) (h1 : 0 ≤ strings.Index s seqPlaceHolder)
    (hout : strings.Replace s seqPlaceHolder
      (List.replicate (16 - (FormatInt v).length) '0' ++ FormatInt v) = out)
    (h2 : strings.Index out randPlaceHolder = -1) (hv : wrapInt64 (v + 1) = v1) :
    replace s { seqGen := { v := v }, src := src }
      = .ok (out, { seqGen := { v := v1 }, src := src }) := by
  subst hout
  subst hv
  have g1 : ¬ ((-1 : Int) ≥ 0) := by decide
  simp only [replace, ge_iff_le, if_pos h1, replaceSeq, seq_eq, h2, if_neg g1]

/-- C8. Place-holder expansion: with `v` the value of one call of `seq` and `x` the value of
one call of `random` in the current state, `replace(s)` is `s` with every instance of
`"__seq_int__"` replaced by `v` and then every instance of `"__rand_int__"` in that result
replaced by `x`. The counter of `seq` is advanced once when `s` contains the sequence marker
and is left alone otherwise; one draw is made when the intermediate string contains the
random marker and none otherwise; an input with neither marker comes back unchanged with
the state unchanged. Two sequence markers in one input get the same value, and
`"key-__seq_int__"` expanded twice gives `"key-0000000000000000"` then
`"key-0000000000000001"`. -/
theorem replace_expansion (s : List Char) (w : World) :
    ∃ v w1 x w2 w3,
      seq w = .ok (v, w1) ∧ random w = .ok (x, w2)
      ∧ replace s w
          = .ok (strings.Replace (strings.Replace s seqPlaceHolder v) randPlaceHolder x, w3)
      ∧ w3.src.draws = w.src.draws
      ∧ w1.seqGen.v = wrapInt64 (w.seqGen.v + 1)
      ∧ w2.src.drawn = w.src.drawn + 1
      ∧ (seqPlaceHolder <:+: s → w3.seqGen = w1.seqGen)
      ∧ (¬ seqPlaceHolder <:+: s → w3.seqGen = w.seqGen)
      ∧ (randPlaceHolder <:+: strings.Replace s seqPlaceHolder v → w3.src = w2.src)
      ∧ (¬ randPlaceHolder <:+: strings.Replace s seqPlaceHolder v → w3.src = w.src)
      ∧ (¬ seqPlaceHolder <:+: s → ¬ randPlaceHolder <:+: s → replace s w = .ok (s, w))
      ∧ (∀ draws, ∃ u,
          replace "__seq_int__-__seq_int__".toList (World.init draws)
            = .ok ("0000000000000000-0000000000000000".toList, u)
          ∧ u.seqGen.v = 1 ∧ u.src.drawn = 0)
      ∧ (∀ draws, ∃ u1 u2,
          replace "key-__seq_int__".toList (World.init draws)
            = .ok ("key-0000000000000000".toList, u1)
          ∧ replace "key-__seq_int__".toList u1 = .ok ("key-0000000000000001".toList, u2)) := by
  refine ⟨_, _, _, _, _, seq_eq w, random_eq w, replace_eq s w, ?_, rfl, rfl, ?_, ?_, ?_, ?_,
    ?_, ?_, ?_⟩
  · dsimp only
    split <;> rfl
  · intro h
    have h1 := (Index_nonneg_iff seqPlaceHolder s).mpr h
    simp only [ge_iff_le, if_pos h1]
  · intro h
    have h1 : ¬ 0 ≤ strings.Index s seqPlaceHolder :=
      fun hc => h ((Index_nonneg_iff seqPlaceHolder s).mp hc)
    simp only [ge_iff_le, if_neg h1]
  · intro h
    have h1 := (Index_nonneg_iff randPlaceHolder _).mpr h
    simp only [ge_iff_le, if_pos h1]
  · intro h
    have h1 : ¬ 0 ≤ strings.Index (strings.Replace s seqPlaceHolder
        (List.replicate (16 - (FormatInt w.seqGen.v).length) '0' ++ FormatInt w.seqGen.v))
        randPlaceHolder :=
      fun hc => h ((Index_nonneg_iff randPlaceHolder _).mp hc)
    simp only [ge_iff_le, if_neg h1]
  · intro hs hr
    have h1 : ¬ strings.Index s seqPlaceHolder ≥ 0 :=
      fun hc => hs ((Index_nonneg_iff seqPlaceHolder s).mp hc)
    have h2 : ¬ strings.Index s randPlaceHolder ≥ 0 :=
      fun hc => hr ((Index_nonneg_iff randPlaceHolder s).mp hc)
    simp only [replace, if_neg h1, if_neg h2]
  · intro draws
    exact ⟨{ seqGen := { v := 1 }, src := { draws := draws, drawn := 0 } },
      replace_seq_only _ 0 _ _ 1 (by decide) (by decide) (by decide) (by decide), rfl, rfl⟩
  · intro draws
    exact ⟨{ seqGen := { v := 1 }, src := { draws := draws, drawn := 0 } },
      { seqGen := { v := 2 }, src := { draws := draws, drawn := 0 } },
      replace_seq_only _ 0 _ _ 1 (by decide) (by decide) (by decide) (by decide),
      replace_seq_only _ 1 _ _ 2 (by decide) (by decide) (by decide) (by decide)⟩

/-- C10. Expansion is idempotent: for every input `s` and every state of the generators, the
output of `replace(s)` contains no instance of `"__seq_int__"` and none of `"__rand_int__"`
(`strings.Index` gives -1 for both); applying `replace` to that output, in any state, returns
it unchanged and leaves the state unchanged (no counter value and no draw is used). -/
theorem replace_idempotent (s : List Char) (w : World) :
    ∃ out w1, replace s w = .ok (out, w1)
      ∧ ¬ seqPlaceHolder <:+: out
      ∧ ¬ randPlaceHolder <:+: out
      ∧ strings.Index out seqPlaceHolder = -1
      ∧ strings.Index out randPlaceHolder = -1
      ∧ ∀ w2, replace out w2 = .ok (out, w2) := by
  have hv := padded_chars w.seqGen.v
  have hx := padded_chars (w.src.draws w.src.drawn)
  have hvn := padded_ne_nil w.seqGen.v
  have hxn := padded_ne_nil (w.src.draws w.src.drawn)
  have dss := foreign_of_chars seqPlaceHolder _ seqPlaceHolder_chars hv
  have dsr := foreign_of_chars seqPlaceHolder _ seqPlaceHolder_chars hx
  have drr := foreign_of_chars randPlaceHolder _ randPlaceHolder_chars hx
  have nes := ne_of_foreign seqPlaceHolder _ seqPlaceHolder_ne_nil dss
  have ner := ne_of_foreign randPlaceHolder _ randPlaceHolder_ne_nil drr
  have hno_seq : ¬ seqPlaceHolder <:+: strings.Replace
      (strings.Replace s seqPlaceHolder
        (List.replicate (16 - (FormatInt w.seqGen.v).length) '0' ++ FormatInt w.seqGen.v))
      randPlaceHolder
      (List.replicate (16 - (FormatInt (w.src.draws w.src.drawn)).length) '0'
        ++ FormatInt (w.src.draws w.src.drawn)) := by
    intro h
    have h1 := infix_Replace randPlaceHolder _ randPlaceHolder_ne_nil ner hxn seqPlaceHolder
      seqPlaceHolder_ne_nil dsr _ _ rfl h
    exact Replace_removes seqPlaceHolder _ seqPlaceHolder_ne_nil nes hvn dss _ s rfl h1
  have hno_rand : ¬ randPlaceHolder <:+: strings.Replace
      (strings.Replace s seqPlaceHolder
        (List.replicate (16 - (FormatInt w.seqGen.v).length) '0' ++ FormatInt w.seqGen.v))
      randPlaceHolder
      (List.replicate (16 - (FormatInt (w.src.draws w.src.drawn)).length) '0'
        ++ FormatInt (w.src.draws w.src.drawn)) :=
    Replace_removes randPlaceHolder _ randPlaceHolder_ne_nil ner hxn drr _ _ rfl
  have hi1 := Index_absent _ _ hno_seq
  have hi2 := Index_absent _ _ hno_rand
  refine ⟨_, _, replace_eq s w, hno_seq, hno_rand, hi1, hi2, ?_⟩
  intro w2
  have g1 : ¬ ((-1 : Int) ≥ 0) := by decide
  simp only [replace, hi1, hi2, if_neg g1]

/-- Witness for C7: a source whose next draw is 42. -/
theorem randCreater_width_witness :
    (0 : Int) ≤ ({ draws := fun _ => 42, drawn := 0 } : RandSource).draws 0
    ∧ ({ draws := fun _ => 42, drawn := 0 } : RandSource).draws 0 < 10 ^ 16
    ∧ ∃ d : Nat, d = (FormatInt 42).length ∧ 1 ≤ d ∧ d ≤ 16
      ∧ (randCreater 10000000000000000).call { draws := fun _ => 42, drawn := 0 }
          = .ok (List.replicate (16 - d) '0' ++ FormatInt 42,
                { draws := fun _ => 42, drawn := 0 + 1 })
      ∧ (List.replicate (16 - d) '0' ++ FormatInt 42).length = 16
      ∧ (∀ c ∈ List.replicate (16 - d) '0' ++ FormatInt 42, c.isDigit = true)
      ∧ ((decimalValue (FormatInt 42) : Nat) : Int) = 42
      ∧ (42 : Int) < 10 ^ d
      ∧ ((0 : Int) < 42 → 10 ^ (d - 1) ≤ (42 : Int))
      ∧ 16 - d < fillTable.length
      ∧ fillTable.get? (16 - d) = some (List.replicate (16 - d) '0') :=
  ⟨by decide, by norm_num,
    randCreater_width { draws := fun _ => 42, drawn := 0 } (by decide) (by norm_num)⟩

end Tikv
